import Mathlib

/-!
# Verification of `drf-extended-viewsets` (`src/viewsets.py`)

A shallow embedding of the `extended_route` decorator: the response-shaping
policy that wraps a ViewSet retrieval operation (`retrieve` / `list`) and,
driven by the `extended` and `extend_fields` query parameters, decides whether
to return the default-serializer result, the extended-serializer result, or a
field-by-field merge of the two.

Modelling conventions:
* Python dicts / `OrderedDict` records become association lists
  `List (String × α)` (ordered keys, first occurrence authoritative).
* A response's `data` payload (`result.data`) is `Data α`: an ordered sequence
  of records, a single record, or any other shape (`Data.other`).
* The viewset's `serializer_class` / `extended_serializer_class` attributes
  become the fields `serializer_cls : σ` and `extended_serializer_cls :
  Option σ` of `ViewSet σ` (the suffix of the Python attribute names is
  spelled `cls` here).
* Fallible Python operations (`int(...)`, `seq[idx]`, `dict[key]`) are
  embedded in `Except PyErr`, with the error constructor matching the Python
  exception that the expression would raise.
* The wrapper returns, besides the response, the final viewset state and the
  trace of invocations of the wrapped operation (the serializer configured at
  each call), so that invocation-count and mutation properties are statable.
-/

set_option autoImplicit false

namespace Viewsets

variable {σ α : Type}

/-- A request: its query parameters, as key/value string pairs. -/
structure Req where
  query_params : List (String × String)
  deriving DecidableEq

/-- The payload carried by a retrieval result's `data` attribute:
an ordered sequence of records (`list` / `tuple` of dicts), a single
ordered-key record (`OrderedDict`), or any other shape. -/
inductive Data (α : Type) where
  | seq : List (List (String × α)) → Data α
  | record : List (String × α) → Data α
  | other : Data α
  deriving DecidableEq

/-- A retrieval result (response envelope); the policy only touches `data`. -/
structure Result (α : Type) where
  data : Data α
  deriving DecidableEq

/-- The handler: `serializer_cls` embeds the Python attribute
`serializer_class`, and `extended_serializer_cls` embeds
`extended_serializer_class` (`None` ↦ `none`). -/
structure ViewSet (σ : Type) where
  serializer_cls : σ
  extended_serializer_cls : Option σ
  deriving DecidableEq

/-- Python exceptions the wrapper can raise. -/
inductive PyErr where
  | valueError
  | keyError
  | indexError
  | typeError
  deriving DecidableEq

/-- First-occurrence association-list lookup: `d.get(k)` / `params.get(k)`. -/
def lookupKey : List (String × α) → String → Option α
  | [], _ => none
  | (k', v) :: rest, k => if k' = k then some v else lookupKey rest k

/-- Python `k in d` on a dict. -/
def hasKey (r : List (String × α)) (k : String) : Bool :=
  (lookupKey r k).isSome

/-- Python `d[k] = v` on a dict: update the existing key in place, else
append (in the wrapper it is only reached with the key present). -/
def setKey : List (String × α) → String → α → List (String × α)
  | [], k, v => [(k, v)]
  | (k', v') :: rest, k, v =>
      if k' = k then (k, v) :: rest else (k', v') :: setKey rest k v

/-- `request.query_params.get(key)`. -/
def getParam (request : Req) (key : String) : Option String :=
  lookupKey request.query_params key

/-- Whitespace stripped by Python's `int(str)`. -/
def isPySpace (c : Char) : Bool :=
  c = ' ' || c = '\t' || c = '\n' || c = '\r' || c = '\x0b' || c = '\x0c'

/-- Decimal digits to a natural number. -/
def digitsToNat (cs : List Char) : Nat :=
  cs.foldl (fun acc c => acc * 10 + (c.toNat - 48)) 0

/-- Python `int(s)` on a string: strip surrounding whitespace, optional
sign, then one or more decimal digits; anything else raises `ValueError`
(embedded as `none`). -/
def parseIntPy (s : String) : Option Int :=
  let cs := (s.toList.dropWhile isPySpace).reverse.dropWhile isPySpace |>.reverse
  match cs with
  | [] => none
  | c :: rest =>
    let p : Bool × List Char :=
      if c = '-' then (true, rest)
      else if c = '+' then (false, rest)
      else (false, c :: rest)
    if !p.2.isEmpty && p.2.all Char.isDigit then
      some (if p.1 then -(digitsToNat p.2 : Int) else (digitsToNat p.2 : Int))
    else none

/-- `int(request.query_params.get("extended", 0))`: the integer `0` default
passes `int` unchanged; a present string value must parse. -/
def parseFlag (request : Req) : Except PyErr Int :=
  match getParam request "extended" with
  | none => .ok 0
  | some s =>
    match parseIntPy s with
    | some n => .ok n
    | none => .error .valueError

/-- Python `s.split(",")` at the character level: split at every comma,
keeping empty segments (`"".split(",") == [""]`). -/
def splitCommaChars : List Char → List (List Char)
  | [] => [[]]
  | c :: rest =>
    if c = ',' then [] :: splitCommaChars rest
    else
      match splitCommaChars rest with
      | [] => [[c]]
      | seg :: segs => (c :: seg) :: segs

/-- `s.split(",")` on strings. -/
def splitComma (s : String) : List String :=
  (splitCommaChars s.toList).map fun cs => String.mk cs

/-- Lines 29–31: `[i for i in request.query_params.get("extend_fields",
"").split(",") if i]` — comma-split, empty segments dropped. -/
def splitFields (s : String) : List String :=
  (splitComma s).filter fun i => !i.isEmpty

/-- `result_extended.data[idx][ef]` (line 49): integer-index the extended
payload, then key-index the record found there. On a sequence, an index past
the end raises `IndexError` and a missing key `KeyError`; subscripting an
`OrderedDict` by an integer raises `KeyError`; any other payload shape
raises `TypeError`. -/
def extSeqGet (d : Data α) (idx : Nat) (ef : String) : Except PyErr α :=
  match d with
  | .seq l =>
    match l[idx]? with
    | some r =>
      match lookupKey r ef with
      | some v => .ok v
      | none => .error .keyError
    | none => .error .indexError
  | .record _ => .error .keyError
  | .other => .error .typeError

/-- `result_extended.data[ef]` (line 55): key-index the extended payload;
string-subscripting a list raises `TypeError`, a missing key `KeyError`. -/
def extKeyGet (d : Data α) (ef : String) : Except PyErr α :=
  match d with
  | .record r =>
    match lookupKey r ef with
    | some v => .ok v
    | none => .error .keyError
  | .seq _ => .error .typeError
  | .other => .error .typeError

/-- Inner loop of lines 47–49: for each `ef` in `extend_fields`, if `ef` is a
key of the (evolving) default record at `idx`, overwrite it with
`result_extended.data[idx][ef]`. -/
def mergeSeqRecord (extD : Data α) (idx : Nat) :
    List String → List (String × α) → Except PyErr (List (String × α))
  | [], r => .ok r
  | ef :: rest, r =>
    if hasKey r ef then
      match extSeqGet extD idx ef with
      | .ok v => mergeSeqRecord extD idx rest (setKey r ef v)
      | .error e => .error e
    else mergeSeqRecord extD idx rest r

/-- Loop of lines 53–55 (single-record case): for each `ef` in
`extend_fields`, if `ef` is a key of the default record, overwrite it with
`result_extended.data[ef]`. -/
def mergeRecord (extD : Data α) :
    List String → List (String × α) → Except PyErr (List (String × α))
  | [], r => .ok r
  | ef :: rest, r =>
    if hasKey r ef then
      match extKeyGet extD ef with
      | .ok v => mergeRecord extD rest (setKey r ef v)
      | .error e => .error e
    else mergeRecord extD rest r

/-- Outer loop of lines 46–49: `for idx in range(len(result.data))`,
threading the running index into the positional accesses. -/
def reconcileSeq (extD : Data α) (fields : List String) :
    Nat → List (List (String × α)) → Except PyErr (List (List (String × α)))
  | _, [] => .ok []
  | idx, r :: rest =>
    match mergeSeqRecord extD idx fields r with
    | .ok r' =>
      match reconcileSeq extD fields (idx + 1) rest with
      | .ok rest' => .ok (r' :: rest')
      | .error e => .error e
    | .error e => .error e

/-- Lines 45–57: reconcile the default payload with the extended payload over
the selector list; payload shapes other than sequence / record fall through
unmodified. -/
def reconcile (dflt extD : Data α) (fields : List String) :
    Except PyErr (Data α) :=
  match dflt with
  | .seq l =>
    match reconcileSeq extD fields 0 l with
    | .ok l' => .ok (.seq l')
    | .error e => .error e
  | .record r =>
    match mergeRecord extD fields r with
    | .ok r' => .ok (.record r')
    | .error e => .error e
  | .other => .ok .other

deriving instance DecidableEq for Except

/-- The wrapper's observable outcome: the returned result, the viewset's
final state, and the serializer configured at each invocation of the wrapped
operation, in order. -/
structure WrapOut (σ α : Type) where
  result : Result α
  viewset : ViewSet σ
  calls : List σ
  deriving DecidableEq

/-- Lines 12–57, `extended_route.wrapper`: the full response-shaping policy
around a wrapped operation `f` (which sees the viewset state current at its
invocation). -/
def wrapper (f : ViewSet σ → Req → Result α) (viewset : ViewSet σ)
    (request : Req) : Except PyErr (WrapOut σ α) :=
  match viewset.extended_serializer_cls with
  | none => .ok ⟨f viewset request, viewset, [viewset.serializer_cls]⟩
  | some extCls =>
    let original_serializer := viewset.serializer_cls
    let result := f viewset request
    match parseFlag request with
    | .error e => .error e
    | .ok flag =>
      if flag = 0 then .ok ⟨result, viewset, [original_serializer]⟩
      else
        let extend_fields := splitFields ((getParam request "extend_fields").getD "")
        let viewset2 : ViewSet σ := { viewset with serializer_cls := extCls }
        let result_extended := f viewset2 request
        if extend_fields.isEmpty then
          .ok ⟨result_extended, viewset2, [original_serializer, extCls]⟩
        else
          match reconcile result.data result_extended.data extend_fields with
          | .ok d => .ok ⟨{ data := d }, viewset2, [original_serializer, extCls]⟩
          | .error e => .error e

/-- C6: No-op passthrough — with no alternate serializer configured, the
wrapper returns exactly the wrapped operation's result, with one invocation
under the original serializer and no mutation of the viewset. -/
theorem noop_passthrough (f : ViewSet σ → Req → Result α) (vs : ViewSet σ)
    (req : Req) (h : vs.extended_serializer_cls = none) :
    wrapper f vs req = .ok ⟨f vs req, vs, [vs.serializer_cls]⟩ := by
  unfold wrapper
  rw [h]

/-- Witness for `noop_passthrough` at a concrete handler and request. -/
theorem noop_passthrough_witness :
    wrapper (fun (vs : ViewSet Nat) (_ : Req) => ⟨.record [("a", vs.serializer_cls)]⟩)
        ⟨0, none⟩ ⟨[("extended", "1")]⟩ =
      .ok ⟨⟨.record [("a", 0)]⟩, ⟨0, none⟩, [0]⟩ :=
  noop_passthrough _ ⟨0, none⟩ ⟨[("extended", "1")]⟩ rfl

/-- C1: Restoration fails — with serializer `0`, alternate serializer `1` and
`?extended=1`, the wrapper returns with the handler's configured serializer
left at `1`: the original serializer (`0`) is never reassigned (line 18's
`original_serializer` is unused; the assignment of line 35 is final), so the
post-invocation strategy differs from the pre-invocation one. -/
theorem restoration_violated :
    wrapper (fun (vs : ViewSet Nat) (_ : Req) => ⟨.record [("a", vs.serializer_cls)]⟩)
        ⟨0, some 1⟩ ⟨[("extended", "1")]⟩ =
      .ok ⟨⟨.record [("a", 1)]⟩, ⟨1, some 1⟩, [0, 1]⟩ ∧
    ((⟨1, some 1⟩ : ViewSet Nat).serializer_cls ==
      (⟨0, some 1⟩ : ViewSet Nat).serializer_cls) = false := by
  decide

/-- C4: Default path — with an alternate serializer configured but `extended`
absent or parsing to `0`, the wrapper returns exactly the default-serializer
result, with a single invocation under the original serializer and the
viewset unchanged. -/
theorem default_path (f : ViewSet σ → Req → Result α) (vs : ViewSet σ)
    (req : Req) (e : σ) (hext : vs.extended_serializer_cls = some e)
    (hflag : getParam req "extended" = none ∨
      ∃ s, getParam req "extended" = some s ∧ parseIntPy s = some 0) :
    wrapper f vs req = .ok ⟨f vs req, vs, [vs.serializer_cls]⟩ := by
  unfold wrapper
  rw [hext]
  rcases hflag with h | ⟨s, hs, hp⟩
  · simp [parseFlag, h]
  · simp [parseFlag, hs, hp]

/-- Witness for `default_path`: `?extended=0` on a handler with an alternate
serializer returns the default result after one default-serializer call. -/
theorem default_path_witness :
    wrapper (fun (vs : ViewSet Nat) (_ : Req) => ⟨.record [("a", vs.serializer_cls)]⟩)
        ⟨0, some 1⟩ ⟨[("extended", "0")]⟩ =
      .ok ⟨⟨.record [("a", 0)]⟩, ⟨0, some 1⟩, [0]⟩ :=
  default_path _ ⟨0, some 1⟩ ⟨[("extended", "0")]⟩ 1 rfl
    (Or.inr ⟨"0", rfl, by decide⟩)

/-- C5: Full upgrade — with an alternate serializer, a nonzero `extended`
flag and an empty selector list, the wrapper returns the full result of the
second invocation, performed with the alternate serializer. -/
theorem full_upgrade (f : ViewSet σ → Req → Result α) (vs : ViewSet σ)
    (req : Req) (e : σ) (s : String) (n : Int)
    (hext : vs.extended_serializer_cls = some e)
    (hs : getParam req "extended" = some s)
    (hn : parseIntPy s = some n) (hnz : n ≠ 0)
    (hf : splitFields ((getParam req "extend_fields").getD "") = []) :
    wrapper f vs req =
      .ok ⟨f { vs with serializer_cls := e } req,
        { vs with serializer_cls := e }, [vs.serializer_cls, e]⟩ := by
  unfold wrapper
  rw [hext]
  simp [parseFlag, hs, hn, hnz, hf]

/-- Witness for `full_upgrade`: `?extended=2` with no `extend_fields` returns
the alternate-serializer result wholesale. -/
theorem full_upgrade_witness :
    wrapper (fun (vs : ViewSet Nat) (_ : Req) => ⟨.record [("a", vs.serializer_cls)]⟩)
        ⟨0, some 1⟩ ⟨[("extended", "2")]⟩ =
      .ok ⟨⟨.record [("a", 1)]⟩, ⟨1, some 1⟩, [0, 1]⟩ :=
  full_upgrade _ ⟨0, some 1⟩ ⟨[("extended", "2")]⟩ 1 "2" 2 rfl rfl
    (by decide) (by decide) (by decide)

/-- C7: Malformed flag — with an alternate serializer configured and a
non-integer `extended` value, the wrapper propagates the conversion failure
(`ValueError`) instead of defaulting. -/
theorem malformed_flag (f : ViewSet σ → Req → Result α) (vs : ViewSet σ)
    (req : Req) (e : σ) (s : String)
    (hext : vs.extended_serializer_cls = some e)
    (hs : getParam req "extended" = some s)
    (hbad : parseIntPy s = none) :
    wrapper f vs req = .error .valueError := by
  unfold wrapper
  rw [hext]
  simp [parseFlag, hs, hbad]

/-- Witness for `malformed_flag`: `?extended=notanumber` raises. -/
theorem malformed_flag_witness :
    wrapper (fun (vs : ViewSet Nat) (_ : Req) => ⟨.record [("a", vs.serializer_cls)]⟩)
        ⟨0, some 1⟩ ⟨[("extended", "notanumber")]⟩ = .error .valueError :=
  malformed_flag _ ⟨0, some 1⟩ ⟨[("extended", "notanumber")]⟩ 1 "notanumber"
    rfl rfl (by decide)

/-- C8: Shape fallback — with extended mode requested and a nonempty selector
list, a default payload that is neither a sequence nor a record is returned
unreconciled and unmodified, with no error. -/
theorem shape_fallback (f : ViewSet σ → Req → Result α) (vs : ViewSet σ)
    (req : Req) (e : σ) (s : String) (n : Int)
    (hext : vs.extended_serializer_cls = some e)
    (hs : getParam req "extended" = some s)
    (hn : parseIntPy s = some n) (hnz : n ≠ 0)
    (hfields : splitFields ((getParam req "extend_fields").getD "") ≠ [])
    (hother : (f vs req).data = .other) :
    wrapper f vs req =
      .ok ⟨f vs req, { vs with serializer_cls := e }, [vs.serializer_cls, e]⟩ := by
  have hres : f vs req = ⟨.other⟩ := by
    cases hfv : f vs req with
    | mk d => rw [hfv] at hother; simp only [] at hother; rw [hother]
  unfold wrapper
  rw [hext, hres]
  simp [parseFlag, hs, hn, hnz, reconcile, List.isEmpty_iff, hfields]

/-- Witness for `shape_fallback`: an `other`-shaped default payload passes
through reconciliation untouched. -/
theorem shape_fallback_witness :
    wrapper (fun (vs : ViewSet Nat) (_ : Req) =>
        if vs.serializer_cls = 0 then ⟨.other⟩ else ⟨.record [("a", 1)]⟩)
      ⟨0, some 1⟩ ⟨[("extended", "1"), ("extend_fields", "a")]⟩ =
      .ok ⟨⟨.other⟩, ⟨1, some 1⟩, [0, 1]⟩ :=
  shape_fallback _ ⟨0, some 1⟩ ⟨[("extended", "1"), ("extend_fields", "a")]⟩
    1 "1" 1 rfl rfl (by decide) (by decide) (by decide) (by decide)

/-- An all-absent selector list leaves `mergeRecord` a no-op returning the
record unchanged, whatever the extended payload is. -/
theorem mergeRecord_skip (extD : Data α) (fields : List String)
    (d : List (String × α)) (h : ∀ ef ∈ fields, hasKey d ef = false) :
    mergeRecord extD fields d = .ok d := by
  induction fields with
  | nil => rfl
  | cons ef rest ih =>
    have h1 := h ef (by simp)
    simp [mergeRecord, h1]
    exact ih fun x hx => h x (by simp [hx])

/-- An all-absent selector list leaves `mergeSeqRecord` a no-op returning the
record unchanged, whatever the extended payload is. -/
theorem mergeSeqRecord_skip (extD : Data α) (idx : Nat) (fields : List String)
    (d : List (String × α)) (h : ∀ ef ∈ fields, hasKey d ef = false) :
    mergeSeqRecord extD idx fields d = .ok d := by
  induction fields with
  | nil => rfl
  | cons ef rest ih =>
    have h1 := h ef (by simp)
    simp [mergeSeqRecord, h1]
    exact ih fun x hx => h x (by simp [hx])

/-- C3 (amended): a selector field absent from the default record is
silently skipped — no insertion, no error — whatever the extended payload
contains; a field present in the default record but missing from the
extended payload instead raises a key error (see the counterexample). -/
theorem missing_default_field_skipped (extD : Data α) (idx : Nat)
    (fields : List String) (d : List (String × α))
    (h : ∀ ef ∈ fields, hasKey d ef = false) :
    reconcile (.record d) extD fields = .ok (.record d) ∧
    mergeSeqRecord extD idx fields d = .ok d := by
  refine ⟨?_, mergeSeqRecord_skip extD idx fields d h⟩
  simp [reconcile, mergeRecord_skip extD fields d h]

/-- Witness for `missing_default_field_skipped`: selector `a` is absent from
the default record and from the extended payload; nothing happens. -/
theorem missing_default_field_skipped_witness :
    reconcile (Data.record [("b", 0)]) (Data.record ([] : List (String × Nat)))
        ["a"] = .ok (.record [("b", 0)]) ∧
    mergeSeqRecord (Data.record ([] : List (String × Nat))) 0 ["a"] [("b", 0)] =
      .ok [("b", 0)] :=
  missing_default_field_skipped _ 0 _ _ (by decide)

/-- C3 counterexample: a selector field (`a`) present in the default record
but absent from the extended record is not skipped — the wrapper raises a
key error. -/
theorem missing_ext_field_raises :
    wrapper (fun (vs : ViewSet Nat) (_ : Req) =>
        if vs.serializer_cls = 0 then ⟨.seq [[("a", 0)]]⟩ else ⟨.seq [[]]⟩)
      ⟨0, some 1⟩ ⟨[("extended", "1"), ("extend_fields", "a")]⟩ =
      .error .keyError := by
  decide

/-- Rejoin comma-split segments with commas (specification-side inverse of
`splitCommaChars`). -/
def joinComma : List (List Char) → List Char
  | [] => []
  | [x] => x
  | x :: y :: xs => x ++ ',' :: joinComma (y :: xs)

/-- `splitCommaChars` always produces at least one segment. -/
theorem splitCommaChars_ne_nil (cs : List Char) : splitCommaChars cs ≠ [] := by
  induction cs with
  | nil => simp [splitCommaChars]
  | cons c rest ih =>
    by_cases h : c = ','
    · simp [splitCommaChars, h]
    · simp only [splitCommaChars, if_neg h]
      cases hr : splitCommaChars rest with
      | nil => simp
      | cons seg segs => simp

/-- Rejoining the comma-split segments restores the original characters:
`splitCommaChars` is a genuine comma-split. -/
theorem joinComma_splitCommaChars (cs : List Char) :
    joinComma (splitCommaChars cs) = cs := by
  induction cs with
  | nil => rfl
  | cons c rest ih =>
    by_cases h : c = ','
    · subst h
      simp only [splitCommaChars, if_pos rfl]
      cases hr : splitCommaChars rest with
      | nil => exact absurd hr (splitCommaChars_ne_nil rest)
      | cons seg segs =>
        rw [hr] at ih
        simp [joinComma, ih]
    · simp only [splitCommaChars, if_neg h]
      cases hr : splitCommaChars rest with
      | nil => exact absurd hr (splitCommaChars_ne_nil rest)
      | cons seg segs =>
        rw [hr] at ih
        cases segs with
        | nil => simp_all [joinComma]
        | cons y ys => simp_all [joinComma]

/-- No comma survives inside any segment of `splitCommaChars`. -/
theorem comma_not_mem_splitCommaChars (cs : List Char) :
    ∀ seg ∈ splitCommaChars cs, ',' ∉ seg := by
  induction cs with
  | nil => simp [splitCommaChars]
  | cons c rest ih =>
    by_cases h : c = ','
    · simp only [splitCommaChars, if_pos h]
      intro seg hseg
      rcases List.mem_cons.mp hseg with rfl | hseg
      · simp
      · exact ih seg hseg
    · simp only [splitCommaChars, if_neg h]
      cases hr : splitCommaChars rest with
      | nil => exact absurd hr (splitCommaChars_ne_nil rest)
      | cons seg segs =>
        rw [hr] at ih
        intro sg hsg
        rcases List.mem_cons.mp hsg with rfl | hsg
        · intro hmem
          rcases List.mem_cons.mp hmem with rfl | hmem
          · exact h rfl
          · exact ih seg (by simp) hmem
        · exact ih sg (by simp [hsg])

/-- C9: Selector parsing — `splitComma` is the literal comma-split of the
parameter value (segments rejoin to the original and contain no comma), and
`splitFields` keeps exactly its nonempty segments: it is an
order-preserving subselection (sublist), every kept segment is nonempty,
every nonempty segment is kept with its multiplicity (duplicates
preserved), the empty or absent value yields `[]`, and surrounding
whitespace survives (` a` and `a` stay distinct segments). -/
theorem selector_parsing :
    (∀ s : String,
      joinComma (splitCommaChars s.toList) = s.toList ∧
      (∀ seg ∈ splitCommaChars s.toList, ',' ∉ seg) ∧
      (splitFields s).Sublist (splitComma s) ∧
      (∀ x ∈ splitFields s, ¬ x = "") ∧
      (∀ x : String, ¬ x = "" → (splitFields s).count x = (splitComma s).count x)) ∧
    splitFields "" = [] ∧
    splitComma " a, a,a,,a" = [" a", " a", "a", "", "a"] ∧
    splitFields " a, a,a,,a" = [" a", " a", "a", "a"] := by
  refine ⟨fun s => ⟨joinComma_splitCommaChars s.toList,
    comma_not_mem_splitCommaChars s.toList,
    List.filter_sublist (splitComma s), ?_, ?_⟩, by decide, by decide, by decide⟩
  · intro x hx
    have hemp := (List.mem_filter.mp hx).2
    intro hx0
    rw [hx0] at hemp
    exact absurd hemp (by decide)
  · intro x hxne
    apply List.count_filter
    have : x.isEmpty = false := by
      cases hb : x.isEmpty
      · rfl
      · exact absurd ((String.isEmpty_iff x).mp hb) hxne
    simp [this]

/-- Witness for `selector_parsing`: the multiplicity of a nonempty field
name is preserved by the empty-segment filter. -/
theorem selector_parsing_witness :
    (splitFields "a,,a").count "a" = (splitComma "a,,a").count "a" :=
  (selector_parsing.1 "a,,a").2.2.2.2 "a" (by decide)

/-- Within bounds, a positional access into a sequence-shaped extended
payload can only fail on the key, never on the index. -/
theorem extSeqGet_err (el : List (List (String × α))) (idx : Nat) (ef : String)
    (h : idx < el.length) (e : PyErr)
    (he : extSeqGet (.seq el) idx ef = .error e) : e = .keyError := by
  have hidx : el[idx]? = some el[idx] := List.getElem?_eq_getElem h
  simp only [extSeqGet, hidx] at he
  cases hlk : lookupKey el[idx] ef with
  | none => rw [hlk] at he; exact (Except.error.injEq _ _).mp he.symm
  | some v => rw [hlk] at he; exact absurd he (by simp)

/-- Within bounds, the inner reconciliation loop over one record can only
fail with a key error. -/
theorem mergeSeqRecord_err (el : List (List (String × α))) (idx : Nat)
    (h : idx < el.length) :
    ∀ (fields : List String) (d : List (String × α)) (e : PyErr),
      mergeSeqRecord (.seq el) idx fields d = .error e → e = .keyError := by
  intro fields
  induction fields with
  | nil => intro d e he; exact absurd he (by simp [mergeSeqRecord])
  | cons ef rest ih =>
    intro d e he
    by_cases hk : hasKey d ef = true
    · cases hg : extSeqGet (Data.seq el) idx ef with
      | ok v =>
        rw [mergeSeqRecord, if_pos hk, hg] at he
        exact ih _ _ he
      | error e1 =>
        rw [mergeSeqRecord, if_pos hk, hg] at he
        have h1 : e1 = e := (Except.error.injEq _ _).mp he
        exact h1 ▸ extSeqGet_err el idx ef h e1 hg
    · rw [mergeSeqRecord, if_neg hk] at he
      exact ih _ _ he

/-- When the extended sequence is at least as long as the rest of the
default sequence, the outer reconciliation loop can only fail with a key
error: no index access is ever out of bounds. -/
theorem reconcileSeq_err (el : List (List (String × α))) (fields : List String) :
    ∀ (dl : List (List (String × α))) (idx : Nat) (e : PyErr),
      idx + dl.length ≤ el.length →
      reconcileSeq (.seq el) fields idx dl = .error e → e = .keyError := by
  intro dl
  induction dl with
  | nil => intro idx e _ he; exact absurd he (by simp [reconcileSeq])
  | cons d rest ih =>
    intro idx e hb he
    have hidx : idx < el.length := by
      simp only [List.length_cons] at hb
      omega
    cases hm : mergeSeqRecord (Data.seq el) idx fields d with
    | error e1 =>
      rw [reconcileSeq, hm] at he
      have h1 : e1 = e := (Except.error.injEq _ _).mp he
      exact h1 ▸ mergeSeqRecord_err el idx hidx fields d e1 hm
    | ok d' =>
      cases hr : reconcileSeq (Data.seq el) fields (idx + 1) rest with
      | error e2 =>
        rw [reconcileSeq, hm, hr] at he
        have h2 : e2 = e := (Except.error.injEq _ _).mp he
        refine h2 ▸ ih (idx + 1) e2 ?_ hr
        simp only [List.length_cons] at hb
        omega
      | ok l2 => rw [reconcileSeq, hm, hr] at he; exact absurd he (by simp)

/-- C10: In-bounds positional access — whenever the extended sequence is at
least as long as the default one, sequence reconciliation never fails on an
index access (any failure is a key error, i.e. the unguarded
`result_extended.data[idx]` accesses all stay in bounds); and the length
precondition is necessary: with a shorter extended sequence the very first
guarded field hits the index-error branch. -/
theorem inbounds_access :
    (∀ (β : Type) (dl el : List (List (String × β))) (fields : List String),
      dl.length ≤ el.length →
      ∀ e : PyErr, reconcile (Data.seq dl) (Data.seq el) fields = .error e →
        e = .keyError) ∧
    reconcile (Data.seq [[("a", 0)]]) (Data.seq ([] : List (List (String × Nat))))
        ["a"] = .error .indexError := by
  constructor
  · intro β dl el fields hlen e he
    cases hr : reconcileSeq (Data.seq el) fields 0 dl with
    | ok l2 => rw [reconcile, hr] at he; exact absurd he (by simp)
    | error e2 =>
      rw [reconcile, hr] at he
      have h2 : e2 = e := (Except.error.injEq _ _).mp he
      exact h2 ▸ reconcileSeq_err el fields dl 0 e2 (by omega) hr
  · decide

/-- Witness for `inbounds_access`: a within-bounds failing reconciliation
(missing key in the extended record) is classified as a key error. -/
theorem inbounds_access_witness : PyErr.keyError = PyErr.keyError :=
  inbounds_access.1 Nat [[("a", 0)]] [[]] ["a"] (by decide) PyErr.keyError
    (by decide)

/-- Two booleans agreeing as propositions are equal. -/
theorem bool_eq_of_iff {a b : Bool} (h : a = true ↔ b = true) : a = b := by
  cases a <;> cases b <;> simp_all

/-- `hasKey` is membership in the key column. -/
theorem hasKey_iff_mem (r : List (String × α)) (k : String) :
    hasKey r k = true ↔ k ∈ r.map Prod.fst := by
  induction r with
  | nil => simp [hasKey, lookupKey]
  | cons p rest ih =>
    obtain ⟨a, b⟩ := p
    by_cases h : a = k
    · subst h
      simp [hasKey, lookupKey]
    · have ih' := ih
      simp only [hasKey] at ih'
      simp only [hasKey, lookupKey, if_neg h, List.map_cons, List.mem_cons, ih']
      constructor
      · exact Or.inr
      · rintro (rfl | hm)
        · exact absurd rfl h
        · exact hm

/-- Overwriting an existing key leaves the key column unchanged. -/
theorem setKey_map_fst (r : List (String × α)) (k : String) (v : α)
    (h : hasKey r k = true) :
    (setKey r k v).map Prod.fst = r.map Prod.fst := by
  induction r with
  | nil => exact absurd h (by simp [hasKey, lookupKey])
  | cons p rest ih =>
    obtain ⟨a, b⟩ := p
    by_cases hak : a = k
    · subst hak
      simp [setKey]
    · have htl : hasKey rest k = true := by
        simpa [hasKey, lookupKey, hak] using h
      simp [setKey, hak, ih htl]

/-- Overwriting an existing key preserves key presence throughout. -/
theorem hasKey_setKey (r : List (String × α)) (k : String) (v : α)
    (h : hasKey r k = true) (k' : String) :
    hasKey (setKey r k v) k' = hasKey r k' := by
  have h1 := hasKey_iff_mem (setKey r k v) k'
  rw [setKey_map_fst r k v h] at h1
  exact bool_eq_of_iff (h1.trans (hasKey_iff_mem r k').symm)

/-- Field-by-field merge of one default record `d` against one extended
record `x`, written from the specification: each field of `d` named in the
selector list takes its value from `x`, every other field keeps its
default value, and no field is inserted. -/
def specMergeRecord (fields : List String) (x d : List (String × α)) :
    List (String × α) :=
  d.map fun p =>
    if p.1 ∈ fields then
      match lookupKey x p.1 with
      | some w => (p.1, w)
      | none => p
    else p

/-- Positional merge of a default sequence against an extended sequence,
written from the specification: record `i` of the default is merged with
record `i` of the extended result. -/
def specSelectiveMerge (fields : List String)
    (dl el : List (List (String × α))) : List (List (String × α)) :=
  (dl.zip el).map fun q => specMergeRecord fields q.2 q.1

/-- A selector head absent from the record contributes nothing to the
specification-side merge. -/
theorem specMergeRecord_absent (x : List (String × α)) (ef : String)
    (rest : List String) (d : List (String × α)) (h : hasKey d ef = false) :
    specMergeRecord (ef :: rest) x d = specMergeRecord rest x d := by
  induction d with
  | nil => rfl
  | cons p dtl ih =>
    obtain ⟨a, b⟩ := p
    have hne : ¬ a = ef := by
      intro hh
      subst hh
      simp [hasKey, lookupKey] at h
    have htl : hasKey dtl ef = false := by
      simpa [hasKey, lookupKey, hne] using h
    simp only [specMergeRecord, List.map_cons]
    congr 1
    · simp [List.mem_cons, hne]
    · exact ih htl

/-- Processing a selector head by overwriting its key in place commutes with
the specification-side merge of the remaining selectors. -/
theorem specMergeRecord_swap (x : List (String × α)) (ef : String) (v : α)
    (rest : List String) (d : List (String × α))
    (hk : hasKey d ef = true) (hnd : (d.map Prod.fst).Nodup)
    (hv : lookupKey x ef = some v) :
    specMergeRecord (ef :: rest) x d = specMergeRecord rest x (setKey d ef v) := by
  induction d with
  | nil => exact absurd hk (by simp [hasKey, lookupKey])
  | cons p dtl ih =>
    obtain ⟨a, b⟩ := p
    by_cases hak : a = ef
    · subst hak
      have hnotin : a ∉ dtl.map Prod.fst := (List.nodup_cons.mp hnd).1
      have htl : hasKey dtl a = false := by
        cases hb : hasKey dtl a
        · rfl
        · exact absurd ((hasKey_iff_mem dtl a).mp hb) hnotin
      simp only [setKey, if_pos rfl, specMergeRecord, List.map_cons]
      congr 1
      · simp [hv]
      · exact specMergeRecord_absent x a rest dtl htl
    · have htlk : hasKey dtl ef = true := by
        simpa [hasKey, lookupKey, hak] using hk
      have hnd' : (dtl.map Prod.fst).Nodup := (List.nodup_cons.mp hnd).2
      simp only [setKey, if_neg hak, specMergeRecord, List.map_cons]
      congr 1
      · simp [List.mem_cons, hak]
      · exact ih htlk hnd'

/-- The inner loop of lines 47–49 computes exactly the specification-side
record merge, provided the index is in bounds, the default record has no
duplicate keys (it embeds a dict), and the extended record carries every
selector field that the default record carries. -/
theorem mergeSeqRecord_spec (el : List (List (String × α))) (idx : Nat)
    (hidx : idx < el.length) (fields : List String) (d : List (String × α))
    (hnd : (d.map Prod.fst).Nodup)
    (hc : ∀ ef ∈ fields, hasKey d ef = true →
      (lookupKey (el.getD idx []) ef).isSome = true) :
    mergeSeqRecord (.seq el) idx fields d =
      .ok (specMergeRecord fields (el.getD idx []) d) := by
  induction fields generalizing d with
  | nil => simp [mergeSeqRecord, specMergeRecord]
  | cons ef rest ih =>
    by_cases hk : hasKey d ef = true
    · have hget := hc ef (by simp) hk
      obtain ⟨v, hv⟩ := Option.isSome_iff_exists.mp hget
      have hEl : el[idx]? = some el[idx] := List.getElem?_eq_getElem hidx
      have hgd : el.getD idx [] = el[idx] := List.getD_eq_getElem el [] hidx
      have hx : extSeqGet (Data.seq el) idx ef = .ok v := by
        simp only [extSeqGet, hEl]
        rw [← hgd, hv]
      have hnd2 : ((setKey d ef v).map Prod.fst).Nodup := by
        rw [setKey_map_fst d ef v hk]
        exact hnd
      have hc2 : ∀ ef2 ∈ rest, hasKey (setKey d ef v) ef2 = true →
          (lookupKey (el.getD idx []) ef2).isSome = true := by
        intro ef2 hef2 hk2
        rw [hasKey_setKey d ef v hk ef2] at hk2
        exact hc ef2 (by simp [hef2]) hk2
      simp only [mergeSeqRecord, if_pos hk, hx]
      rw [ih (setKey d ef v) hnd2 hc2]
      rw [specMergeRecord_swap (el.getD idx []) ef v rest d hk hnd hv]
    · have hkf : hasKey d ef = false := by
        cases hb : hasKey d ef
        · rfl
        · exact absurd hb hk
      have hc2 : ∀ ef2 ∈ rest, hasKey d ef2 = true →
          (lookupKey (el.getD idx []) ef2).isSome = true := by
        intro ef2 hef2 hk2
        exact hc ef2 (by simp [hef2]) hk2
      simp only [mergeSeqRecord, if_neg hk]
      rw [ih d hnd hc2]
      rw [specMergeRecord_absent (el.getD idx []) ef rest d hkf]

/-- The outer loop of lines 46–49 computes exactly the specification-side
positional merge against the extended sequence from offset `idx` on. -/
theorem reconcileSeq_spec (el : List (List (String × α))) (fields : List String) :
    ∀ (dl : List (List (String × α))) (idx : Nat),
      idx + dl.length ≤ el.length →
      (∀ r ∈ dl, (r.map Prod.fst).Nodup) →
      (∀ j, j < dl.length → ∀ ef ∈ fields, hasKey (dl.getD j []) ef = true →
        (lookupKey (el.getD (idx + j) []) ef).isSome = true) →
      reconcileSeq (.seq el) fields idx dl =
        .ok (specSelectiveMerge fields dl (el.drop idx)) := by
  intro dl
  induction dl with
  | nil =>
    intro idx _ _ _
    simp [reconcileSeq, specSelectiveMerge]
  | cons d rest ih =>
    intro idx hb hnd hc
    have hidx : idx < el.length := by
      simp only [List.length_cons] at hb
      omega
    have hm : mergeSeqRecord (Data.seq el) idx fields d =
        .ok (specMergeRecord fields (el.getD idx []) d) := by
      refine mergeSeqRecord_spec el idx hidx fields d (hnd d (by simp)) ?_
      intro ef hef hkd
      have h0 := hc 0 (by simp) ef hef (by simpa using hkd)
      simpa using h0
    have hr : reconcileSeq (Data.seq el) fields (idx + 1) rest =
        .ok (specSelectiveMerge fields rest (el.drop (idx + 1))) := by
      refine ih (idx + 1) ?_ ?_ ?_
      · simp only [List.length_cons] at hb
        omega
      · intro r hrm
        exact hnd r (by simp [hrm])
      · intro j hj ef hef hkd
        have h2 := hc (j + 1) (by simp only [List.length_cons]; omega) ef hef
          (by simpa using hkd)
        have hadd : idx + (j + 1) = idx + 1 + j := by omega
        rwa [hadd] at h2
    have hdrop : el.drop idx = el[idx] :: el.drop (idx + 1) :=
      List.drop_eq_getElem_cons hidx
    have hgd : el.getD idx [] = el[idx] := List.getD_eq_getElem el [] hidx
    simp only [reconcileSeq, hm, hr]
    rw [hdrop]
    simp only [specSelectiveMerge, List.zip_cons_cons, List.map_cons]
    rw [hgd]

/-- C2: Selective merge — with an alternate serializer, a nonzero `extended`
flag and a nonempty selector list, when both invocations return sequences of
records (the extended one at least as long, its records carrying every
selector field the positionally matching default record carries, and each
default record being a duplicate-free dict), the wrapper returns the default
result mutated so that, record by record (matched positionally), every
selector field present in a default record takes the extended record's
value and every other field keeps its default value. -/
theorem selective_merge (f : ViewSet σ → Req → Result α) (vs : ViewSet σ)
    (req : Req) (e : σ) (s fs : String) (n : Int)
    (dl el : List (List (String × α)))
    (hext : vs.extended_serializer_cls = some e)
    (hs : getParam req "extended" = some s)
    (hn : parseIntPy s = some n) (hnz : n ≠ 0)
    (hfs : getParam req "extend_fields" = some fs)
    (hfne : splitFields fs ≠ [])
    (hdl : (f vs req).data = .seq dl)
    (hel : (f { vs with serializer_cls := e } req).data = .seq el)
    (hlen : dl.length ≤ el.length)
    (hnd : ∀ r ∈ dl, (r.map Prod.fst).Nodup)
    (hcov : ∀ j, j < dl.length → ∀ ef ∈ splitFields fs,
      hasKey (dl.getD j []) ef = true →
      (lookupKey (el.getD j []) ef).isSome = true) :
    wrapper f vs req =
      .ok ⟨⟨.seq (specSelectiveMerge (splitFields fs) dl el)⟩,
        { vs with serializer_cls := e }, [vs.serializer_cls, e]⟩ := by
  have hrec : reconcileSeq (.seq el) (splitFields fs) 0 dl =
      .ok (specSelectiveMerge (splitFields fs) dl el) := by
    have h0 := reconcileSeq_spec el (splitFields fs) dl 0 (by omega) hnd
      (by intro j hj ef hef hkd; simpa using hcov j hj ef hef hkd)
    simpa using h0
  unfold wrapper
  rw [hext]
  have hel2 : (f { serializer_cls := e, extended_serializer_cls := some e }
      req).data = .seq el := by
    rw [← hext]
    exact hel
  simp [parseFlag, hs, hn, hnz, hfs, List.isEmpty_iff, hfne, reconcile,
    hdl, hel2, hrec]

/-- Witness for `selective_merge`: `?extended=1&extend_fields=a,c` on a
two-record collection takes `a` and `c` from the extended result and keeps
`b` from the default result, positionally. -/
theorem selective_merge_witness :
    wrapper (fun (vs : ViewSet Nat) (_ : Req) =>
        if vs.serializer_cls = 0 then
          ⟨.seq [[("a", 1), ("b", 2), ("c", 3)], [("a", 4), ("b", 5), ("c", 6)]]⟩
        else
          ⟨.seq [[("a", 10), ("b", 20), ("c", 30)], [("a", 40), ("b", 50), ("c", 60)]]⟩)
      ⟨0, some 1⟩ ⟨[("extended", "1"), ("extend_fields", "a,c")]⟩ =
      .ok ⟨⟨.seq (specSelectiveMerge (splitFields "a,c")
          [[("a", 1), ("b", 2), ("c", 3)], [("a", 4), ("b", 5), ("c", 6)]]
          [[("a", 10), ("b", 20), ("c", 30)], [("a", 40), ("b", 50), ("c", 60)]])⟩,
        ⟨1, some 1⟩, [0, 1]⟩ :=
  selective_merge _ ⟨0, some 1⟩ ⟨[("extended", "1"), ("extend_fields", "a,c")]⟩
    1 "1" "a,c" 1
    [[("a", 1), ("b", 2), ("c", 3)], [("a", 4), ("b", 5), ("c", 6)]]
    [[("a", 10), ("b", 20), ("c", 30)], [("a", 40), ("b", 50), ("c", 60)]]
    rfl rfl (by decide) (by decide) rfl (by decide) rfl rfl (by decide)
    (by decide) (by decide)

end Viewsets
